import Mathlib

/-!
Verification of the M3U playlist tools (`scripts/url_sorter.py` and
`scripts/m3u_header_tool.py`) against their natural-language specification.

Lines of a playlist are shallowly embedded as `List Char`; Python string
primitives (`strip`, `rstrip`, substring membership `in`, `startswith`,
`rsplit(',', 1)`, `str.split(',')`, `splitlines`, `'\n'.join`) are given
executable Lean counterparts, and the two scripts' pure processing cores
(`get_sort_score`, `rename_inf`, the channel parser and writer loop of
`sort_m3u_urls`, and `process_m3u_header`) are translated definition by
definition.  Python's stable `sorted` is modelled by `List.insertionSort`,
which is proved below to be sorted and stable — the two properties that
determine the output of any stable sort uniquely.
-/

namespace M3U

/-- A single text line (Python string), embedded as a list of characters. -/
abbrev Line := List Char

/-- ASCII whitespace recognised by Python's `str.strip` / `str.rstrip`. -/
def pyIsSpace (c : Char) : Bool :=
  c == ' ' || c == '\t' || c == '\n' || c == '\r' || c == '\x0b' || c == '\x0c'

/-- Python `str.lstrip()`. -/
def lstrip (l : Line) : Line := l.dropWhile pyIsSpace

/-- Python `str.rstrip()`. -/
def rstrip (l : Line) : Line := (l.reverse.dropWhile pyIsSpace).reverse

/-- Python `str.strip()`. -/
def strip (l : Line) : Line := rstrip (lstrip l)

/-- Python's substring test `needle in hay`. -/
def strContains (needle hay : Line) : Bool :=
  hay.tails.any (fun t => needle.isPrefixOf t)

theorem strContains_iff {needle hay : Line} :
    strContains needle hay = true ↔ needle <:+: hay := by
  simp only [strContains, List.any_eq_true, List.mem_tails,
    List.isPrefixOf_iff_prefix]
  constructor
  · rintro ⟨t, hts, htp⟩
    exact List.infix_iff_prefix_suffix.mpr ⟨t, htp, hts⟩
  · intro h
    obtain ⟨t, htp, hts⟩ := List.infix_iff_prefix_suffix.mp h
    exact ⟨t, hts, htp⟩

/-- The directive marker `"#EXTM3U"`. -/
def marker : Line := "#EXTM3U".toList

/-- The info-line marker `"#EXTINF"`. -/
def extinfTag : Line := "#EXTINF".toList

/-- The URL scheme separator `"://"`. -/
def scheme : Line := "://".toList

/-- The literal regex prefix `tvg-name="` of `url_sorter.py`. -/
def tvgPat : Line := "tvg-name=\"".toList

/-- The literal regex prefix `x-tvg-url="` of `m3u_header_tool.py`. -/
def xtvgPat : Line := "x-tvg-url=\"".toList

/-- One channel record of the sorter: the dict
`{"inf": current_inf, "urls": current_urls}`. -/
structure Channel where
  inf : Line
  urls : List Line
deriving DecidableEq, Repr

/-- The scanning loop `for index, kw in enumerate(keywords): if kw in item:
return ...` of `get_sort_score`, with the running index made explicit:
returns the absolute index of the first keyword occurring in `item`. -/
def scanKeywords (item : Line) : List Line → Nat → Option Nat
  | [], _ => none
  | kw :: rest, i => if strContains kw item then some i else scanKeywords item rest (i + 1)

/-- Function `get_sort_score` of `url_sorter.py` (lines 52-60): 9999 for non-URL
lines; for URLs, the first matching keyword's index `i` gives `i + 1`
(reverse mode) or `i - len(keywords)` (normal mode); unmatched URLs get 0. -/
def get_sort_score (keywords : List Line) (reverse_mode : Bool) (item : Line) : Int :=
  if strContains scheme item = false then 9999
  else
    match scanKeywords item keywords 0 with
    | some index => if reverse_mode then (index : Int) + 1 else (index : Int) - (keywords.length : Int)
    | none => 0

/-- The key-based comparison `key a <= key b` underlying Python's
`sorted(..., key=...)`. -/
def keyLe (key : Line → Int) (a b : Line) : Prop := key a ≤ key b

instance (key : Line → Int) : DecidableRel (keyLe key) :=
  fun a b => inferInstanceAs (Decidable (key a ≤ key b))

instance (key : Line → Int) : IsTotal Line (keyLe key) :=
  ⟨fun a b => Int.le_total (key a) (key b)⟩

instance (key : Line → Int) : IsTrans Line (keyLe key) :=
  ⟨fun _ _ _ h1 h2 => Int.le_trans h1 h2⟩

/-- Python's `sorted(l, key=key)`: the stable sort by `key`.  Insertion
sort is stable and produces a `key`-sorted list (proved below); these two
properties determine the stable sort uniquely, so this models CPython's
Timsort-based `sorted` faithfully. -/
def pySorted (key : Line → Int) (l : List Line) : List Line :=
  l.insertionSort (keyLe key)

/-- Parsing loop of `sort_m3u_urls` (lines 29-49): strips each line, skips
blanks, starts a new record at `#EXTINF`, and otherwise appends the line to
the current record's url list.  `cur` is `current_inf`, `acc` is
`current_urls`; the final open record is flushed at end of input. -/
def parseChannels : List Line → Option Line → List Line → List Channel
  | [], cur, acc =>
    match cur with
    | none => []
    | some inf => [⟨inf, acc⟩]
  | l :: rest, cur, acc =>
    let s := strip l
    if s.isEmpty then parseChannels rest cur acc
    else if extinfTag.isPrefixOf s then
      (match cur with
       | none => []
       | some inf => [⟨inf, acc⟩]) ++ parseChannels rest (some s) []
    else
      -- both URL lines and other `#`-prefixed auxiliary lines land here
      parseChannels rest cur (acc ++ [s])

/-- Python truthiness of the optional list `target_channels`. -/
def truthyList : Option (List Line) → Bool
  | none => false
  | some ls => !ls.isEmpty

/-- Python truthiness of the optional string `new_name`. -/
def truthyStr : Option Line → Bool
  | none => false
  | some s => !s.isEmpty

/-- Split at the first double quote: `findQuote l = some (before, after)`
when `l = before ++ '"' :: after` with no quote in `before`; `none` when
`l` has no quote.  This is how the regex piece `[^"]*"` consumes input. -/
def findQuote : Line → Option (Line × Line)
  | [] => none
  | c :: rest =>
    if c == '"' then some ([], rest)
    else (findQuote rest).map (fun p => (c :: p.1, p.2))

theorem findQuote_length : ∀ {l : Line} {p : Line × Line},
    findQuote l = some p → p.2.length < l.length := by
  intro l
  induction l with
  | nil => intro p h; simp [findQuote] at h
  | cons c rest ih =>
    intro p h
    by_cases hc : c == '"'
    · simp [findQuote, hc] at h
      subst h
      simp
    · simp only [findQuote, hc, if_neg, Bool.false_eq_true, ite_false] at h
      obtain ⟨q, hq, hmap⟩ := Option.map_eq_some'.mp h
      have := ih hq
      subst hmap
      simpa using Nat.lt_succ_of_lt this

/-- Fuel-indexed worker for `re.sub(pat ++ '[^"]*"', pat ++ v ++ '"', l)`:
scans left to right; wherever the literal `pat` (which ends in the opening
quote) matches and a closing quote follows, the quoted span is replaced by
`v` and scanning resumes after the closing quote; otherwise the scan
advances one character.  `fuel ≥ l.length` makes the zero-fuel case dead. -/
def subAttrGo (pat v : Line) : Nat → Line → Line
  | _, [] => []
  | 0, l => l
  | fuel + 1, c :: rest =>
    if pat.isPrefixOf (c :: rest) then
      match findQuote (List.drop pat.length (c :: rest)) with
      | some p => pat ++ v ++ '"' :: subAttrGo pat v fuel p.2
      | none => c :: subAttrGo pat v fuel rest
    else c :: subAttrGo pat v fuel rest

/-- Python `re.sub` with pattern `<pat>[^"]*"` and replacement `<pat><v>"`,
for a literal prefix `pat`
ending in `"` (used with `tvg-name="` and `x-tvg-url="`).  Replacement
strings are taken literally (the scripts interpolate plain names). -/
def subAttr (pat v l : Line) : Line :=
  subAttrGo pat v l.length l

/-- Python `re.search` with pattern `<pat>[^"]*"`: the first match's quoted
group, if any. -/
def searchAttr (pat : Line) : Line → Option Line
  | [] => none
  | c :: rest =>
    if pat.isPrefixOf (c :: rest) then
      match findQuote (List.drop pat.length (c :: rest)) with
      | some p => some p.1
      | none => searchAttr pat rest
    else searchAttr pat rest

/-- Python `s.rsplit(',', 1)` for a string known to contain a comma:
`(text before the last comma, text after it)`. -/
def rsplit1 (l : Line) : Line × Line :=
  (((l.reverse.dropWhile (fun c => c != ',')).drop 1).reverse,
   (l.reverse.takeWhile (fun c => c != ',')).reverse)

/-- Function `rename_inf` of `url_sorter.py` (lines 63-71): substitute the
`tvg-name="..."` value when present, then replace the text after the last
comma (or append `,name` when the evolving line has no comma). -/
def rename_inf (inf_line name : Line) : Line :=
  let inf1 := if strContains tvgPat inf_line then subAttr tvgPat name inf_line else inf_line
  if strContains [','] inf1 then (rsplit1 inf1).1 ++ ',' :: name
  else inf1 ++ ',' :: name

/-- Body of the output loop of `sort_m3u_urls` (lines 79-96) for one
channel: decide `is_target`, optionally rename, decide `should_sort`, and
emit the info line followed by the (possibly stably sorted) url lines. -/
def emitChannel (keywords : List Line) (reverse_mode : Bool)
    (target_channels : Option (List Line)) (new_name : Option Line)
    (ch : Channel) : List Line :=
  let is_target : Bool :=
    if truthyList target_channels then
      (target_channels.getD []).any (fun tc => strContains tc ch.inf)
    else false
  let final_inf :=
    if is_target && truthyStr new_name then rename_inf ch.inf (new_name.getD [])
    else ch.inf
  let should_sort := if truthyList target_channels then is_target else true
  let urls :=
    if should_sort && !ch.urls.isEmpty then
      pySorted (get_sort_score keywords reverse_mode) ch.urls
    else ch.urls
  final_inf :: urls

/-- The pure core of `sort_m3u_urls` (lines 21-96): input is the list of
raw file lines, output the list of written lines.  A first line containing
`#EXTM3U` is kept (stripped) as the header and excluded from parsing. -/
def sort_m3u_urls (keywords : List Line) (reverse_mode : Bool)
    (target_channels : Option (List Line)) (new_name : Option Line)
    (lines : List Line) : List Line :=
  match lines with
  | [] => []
  | l0 :: rest =>
    if strContains marker l0 then
      strip l0 ::
        (parseChannels rest none []).flatMap
          (emitChannel keywords reverse_mode target_channels new_name)
    else
      (parseChannels (l0 :: rest) none []).flatMap
        (emitChannel keywords reverse_mode target_channels new_name)

/-- The keyword / target-channel CSV parsing of lines 7-8:
`[x.strip() for x in s.split(',') if x.strip()]`. -/
def parseCsv (s : Line) : List Line :=
  ((s.splitOn ',').map strip).filter (fun k => !k.isEmpty)

/-- Function `sort_m3u_urls` as called from the CLI, with the keyword string and
the optional target-channel string still unparsed (lines 5-8). -/
def sort_m3u_urls_cli (keywords_str : Line) (reverse_mode : Bool)
    (target_channels_str : Option Line) (new_name : Option Line)
    (lines : List Line) : List Line :=
  sort_m3u_urls (parseCsv keywords_str) reverse_mode
    (match target_channels_str with
     | none => none
     | some s => if s.isEmpty then none else some (parseCsv s))
    new_name lines

/-! ### `m3u_header_tool.py` -/

/-- Line-boundary characters of Python's `str.splitlines`. -/
def isLineBreak (c : Char) : Bool :=
  c == '\n' || c == '\r' || c == '\x0b' || c == '\x0c' || c == '\x1c' ||
  c == '\x1d' || c == '\x1e' || c == '\x85' || c == '\u2028' || c == '\u2029'

/-- Worker for `splitlines`: `acc` holds the current line reversed. -/
def splitlinesGo : Line → Line → List Line
  | [], acc => if acc.isEmpty then [] else [acc.reverse]
  | '\r' :: '\n' :: rest, acc => acc.reverse :: splitlinesGo rest []
  | c :: rest, acc =>
    if isLineBreak c then acc.reverse :: splitlinesGo rest []
    else splitlinesGo rest (c :: acc)

/-- Python `str.splitlines()` (without keepends). -/
def splitlines (content : Line) : List Line := splitlinesGo content []

/-- Python `'\n'.join(lines)`. -/
def joinNL (ls : List Line) : Line := (ls.intersperse ['\n']).flatten

/-- The `#EXTM3U`-branch of `process_m3u_header` (lines 144-168) applied to
one (already `rstrip`ped) directive line, for given `-E` (`force_value`)
and `-e` (`replace_value`) arguments. -/
def processDirectiveLine (replace_value force_value : Option Line) (line : Line) : Line :=
  match force_value with
  | some fv =>
    match searchAttr xtvgPat line with
    | some _ => subAttr xtvgPat fv line
    | none => line ++ ' ' :: xtvgPat ++ fv ++ ['"']
  | none =>
    match replace_value with
    | some rv =>
      match searchAttr xtvgPat line with
      | some current =>
        if !(strip current).isEmpty then subAttr xtvgPat rv line else line
      | none => line
    | none => line

/-- The per-line loop of `process_m3u_header` (lines 133-172): every line
is `rstrip`ped; lines starting with `#EXTM3U` are dropped under `-c` or
rewritten by `processDirectiveLine`; every other line is kept as is. -/
def processHeaderLoop (replace_value force_value : Option Line) (delete_extm3u : Bool) :
    List Line → List Line
  | [] => []
  | l :: rest =>
    let line := rstrip l
    if marker.isPrefixOf line then
      if delete_extm3u then processHeaderLoop replace_value force_value delete_extm3u rest
      else processDirectiveLine replace_value force_value line ::
        processHeaderLoop replace_value force_value delete_extm3u rest
    else line :: processHeaderLoop replace_value force_value delete_extm3u rest

/-- Function `process_m3u_header` at the line level (lines 127-182): the per-line
loop followed by the directive-insertion fallbacks of lines 174-180. -/
def process_m3u_header_lines (replace_value force_value : Option Line)
    (delete_extm3u : Bool) (lines : List Line) : List Line :=
  let processed := processHeaderLoop replace_value force_value delete_extm3u lines
  if force_value.isSome && !processed.any (fun l => marker.isPrefixOf l) then
    (marker ++ ' ' :: xtvgPat ++ force_value.getD [] ++ ['"']) :: processed
  else if !processed.any (fun l => marker.isPrefixOf l) && !delete_extm3u then
    marker :: processed
  else processed

/-- Function `process_m3u_header` of `m3u_header_tool.py` (lines 117-182): split
the content into lines, process them, and rejoin with `'\n'`. -/
def process_m3u_header (replace_value force_value : Option Line)
    (delete_extm3u : Bool) (content : Line) : Line :=
  joinNL (process_m3u_header_lines replace_value force_value delete_extm3u (splitlines content))

/-! ### Properties of the score function -/

theorem scanKeywords_spec (item : Line) : ∀ (kws : List Line) (i0 : Nat),
    (scanKeywords item kws i0 = none ∧ ∀ kw ∈ kws, ¬ kw <:+: item) ∨
    (∃ j, ∃ h : j < kws.length,
      scanKeywords item kws i0 = some (i0 + j) ∧
      (kws.get ⟨j, h⟩) <:+: item ∧
      ∀ m, ∀ hm : m < j, ¬ ((kws.get ⟨m, Nat.lt_trans hm h⟩) <:+: item)) := by
  intro kws
  induction kws with
  | nil =>
    intro i0
    exact Or.inl ⟨rfl, by simp⟩
  | cons kw rest ih =>
    intro i0
    by_cases hkw : strContains kw item = true
    · refine Or.inr ⟨0, Nat.succ_pos _, ?_, ?_, ?_⟩
      · simp [scanKeywords, hkw]
      · simpa using strContains_iff.mp hkw
      · intro m hm
        exact absurd hm (Nat.not_lt_zero m)
    · have hscan : scanKeywords item (kw :: rest) i0 = scanKeywords item rest (i0 + 1) := by
        simp [scanKeywords, hkw]
      have hkw' : ¬ kw <:+: item := fun hc => hkw (strContains_iff.mpr hc)
      rcases ih (i0 + 1) with ⟨hnone, hall⟩ | ⟨j, hj, hsc, hmatch, hfirst⟩
      · refine Or.inl ⟨by rw [hscan]; exact hnone, ?_⟩
        intro kw' hkw''
        rcases List.mem_cons.mp hkw'' with rfl | hmem
        · exact hkw'
        · exact hall kw' hmem
      · refine Or.inr ⟨j + 1, Nat.succ_lt_succ hj, ?_, ?_, ?_⟩
        · rw [hscan, hsc]
          congr 1
          omega
        · simpa using hmatch
        · intro m hm
          cases m with
          | zero => simpa using hkw'
          | succ m' =>
            have hm' : m' < j := Nat.lt_of_succ_lt_succ hm
            simpa using hfirst m' hm'

/-- C2: the score function returns 9999 for a line with no scheme
separator; otherwise, with `i` the index of the first keyword (in list
order, case-sensitive unanchored substring match) contained in the line,
`i - len(keywords)` in normal mode and `i + 1` in reverse mode; and 0 for
a URL matching no keyword. -/
theorem claim_C2_score_spec (kws : List Line) (rm : Bool) (line : Line) :
    (¬ scheme <:+: line → get_sort_score kws rm line = 9999)
    ∧ (scheme <:+: line →
        (∃ i, ∃ h : i < kws.length,
            (kws.get ⟨i, h⟩) <:+: line ∧
            (∀ j, ∀ hj : j < i, ¬ ((kws.get ⟨j, Nat.lt_trans hj h⟩) <:+: line)) ∧
            get_sort_score kws rm line =
              if rm then (i : Int) + 1 else (i : Int) - (kws.length : Int))
        ∨ ((∀ kw ∈ kws, ¬ kw <:+: line) ∧ get_sort_score kws rm line = 0)) := by
  constructor
  · intro h
    have hc : strContains scheme line = false := by
      cases hcc : strContains scheme line with
      | false => rfl
      | true => exact absurd (strContains_iff.mp hcc) h
    simp [get_sort_score, hc]
  · intro h
    have hc : strContains scheme line = true := strContains_iff.mpr h
    rcases scanKeywords_spec line kws 0 with ⟨hnone, hall⟩ | ⟨j, hj, hscan, hmatch, hfirst⟩
    · exact Or.inr ⟨hall, by simp [get_sort_score, hc, hnone]⟩
    · refine Or.inl ⟨j, hj, hmatch, hfirst, ?_⟩
      rw [Nat.zero_add] at hscan
      simp [get_sort_score, hc, hscan]

/-- C10: with fewer than 9999 keywords, a non-URL line scores the
sentinel 9999, every URL line scores strictly less (at most
`len(keywords)` in reverse mode and at most 0 in normal mode), and hence
in the sorted output of a channel no non-URL line ever precedes a URL
line. -/
theorem claim_C10_sentinel (kws : List Line) (rm : Bool)
    (hlen : kws.length < 9999) :
    (∀ item, ¬ scheme <:+: item → get_sort_score kws rm item = 9999)
    ∧ (∀ item, scheme <:+: item →
        get_sort_score kws rm item < 9999
        ∧ get_sort_score kws rm item ≤ (if rm then (kws.length : Int) else 0))
    ∧ ∀ urls : List Line,
        (pySorted (get_sort_score kws rm) urls).Pairwise
          (fun a b => ¬ scheme <:+: a → ¬ scheme <:+: b) := by
  have hnon : ∀ item, ¬ scheme <:+: item → get_sort_score kws rm item = 9999 := by
    intro item h
    have hc : strContains scheme item = false := by
      cases hcc : strContains scheme item with
      | false => rfl
      | true => exact absurd (strContains_iff.mp hcc) h
    simp [get_sort_score, hc]
  have hurl : ∀ item, scheme <:+: item →
      get_sort_score kws rm item < 9999
      ∧ get_sort_score kws rm item ≤ (if rm then (kws.length : Int) else 0) := by
    intro item h
    have hc : strContains scheme item = true := strContains_iff.mpr h
    rcases hscan : scanKeywords item kws 0 with _ | j
    · refine ⟨by simp [get_sort_score, hc, hscan], ?_⟩
      simp only [get_sort_score, hc, hscan]
      cases rm <;> simp
    · have hjlt : j < kws.length := by
        rcases scanKeywords_spec item kws 0 with ⟨hnone, _⟩ | ⟨j', hj', hsc, _, _⟩
        · rw [hnone] at hscan; cases hscan
        · rw [hsc] at hscan
          injection hscan with hh
          omega
      have hlt : (j : Int) < (kws.length : Int) := by exact_mod_cast hjlt
      have hlen' : (kws.length : Int) < 9999 := by exact_mod_cast hlen
      constructor <;> simp [get_sort_score, hc, hscan] <;> cases rm <;> simp <;> omega
  refine ⟨hnon, hurl, ?_⟩
  intro urls
  have hs : (pySorted (get_sort_score kws rm) urls).Pairwise
      (keyLe (get_sort_score kws rm)) :=
    List.sorted_insertionSort (keyLe (get_sort_score kws rm)) urls
  refine hs.imp ?_
  intro a b hab hna hb
  have ha9 : get_sort_score kws rm a = 9999 := hnon a hna
  have hb9 : get_sort_score kws rm b < 9999 := (hurl b hb).1
  have := hab
  rw [keyLe, ha9] at this
  omega

/-! ### Stability of the per-channel sort -/

theorem filter_orderedInsert (key : Line → Int) (x : Line) (c : Int) :
    ∀ l : List Line,
      (l.orderedInsert (keyLe key) x).filter (fun u => key u == c)
      = if key x == c then x :: l.filter (fun u => key u == c)
        else l.filter (fun u => key u == c) := by
  intro l
  induction l with
  | nil =>
    simp only [List.orderedInsert]
    by_cases hx : key x == c <;> simp [List.filter, hx]
  | cons y ys ih =>
    simp only [List.orderedInsert]
    by_cases hxy : keyLe key x y
    · rw [if_pos hxy]
      by_cases hx : key x == c <;> simp [List.filter_cons, hx]
    · rw [if_neg hxy]
      have hyx : key y < key x := by
        rw [keyLe, Int.not_le] at hxy
        exact hxy
      by_cases hx : key x == c
      · have hxc : key x = c := by simpa using hx
        have hyc : ¬ (key y == c) = true := by
          simp only [beq_iff_eq]
          omega
        simp only [List.filter_cons, ih, if_pos hx]
        simp [hyc]
      · simp only [List.filter_cons, ih, if_neg hx]

theorem pySorted_filter_key (key : Line → Int) (c : Int) :
    ∀ l : List Line,
      (pySorted key l).filter (fun u => key u == c)
      = l.filter (fun u => key u == c) := by
  intro l
  induction l with
  | nil => rfl
  | cons x xs ih =>
    show ((xs.insertionSort (keyLe key)).orderedInsert (keyLe key) x).filter _ = _
    rw [filter_orderedInsert]
    by_cases hx : key x == c
    · rw [if_pos hx]
      rw [show (xs.insertionSort (keyLe key)).filter (fun u => key u == c)
            = (pySorted key xs).filter (fun u => key u == c) from rfl, ih]
      simp [List.filter_cons, hx]
    · rw [if_neg hx]
      rw [show (xs.insertionSort (keyLe key)).filter (fun u => key u == c)
            = (pySorted key xs).filter (fun u => key u == c) from rfl, ih]
      simp [List.filter_cons, hx]

/-- C5: the per-channel sort is stable — for any score value `c`, the
subsequence of url lines scoring `c` is the same, in the same order,
before and after sorting. -/
theorem claim_C5_stability (kws : List Line) (rm : Bool) (urls : List Line) (c : Int) :
    (pySorted (get_sort_score kws rm) urls).filter
        (fun u => get_sort_score kws rm u == c)
      = urls.filter (fun u => get_sort_score kws rm u == c) :=
  pySorted_filter_key (get_sort_score kws rm) c urls

/-- Witness for C2 at the spec's own example: keyword list
`["cdn1", "cdn2"]`, normal mode, line `http://x/cdn2/a`. -/
theorem claim_C2_score_spec_witness :
    (∃ i, ∃ h : i < (["cdn1".toList, "cdn2".toList] : List Line).length,
        ((["cdn1".toList, "cdn2".toList] : List Line).get ⟨i, h⟩) <:+: "http://x/cdn2/a".toList ∧
        (∀ j, ∀ hj : j < i,
          ¬ (((["cdn1".toList, "cdn2".toList] : List Line).get
              ⟨j, Nat.lt_trans hj h⟩) <:+: "http://x/cdn2/a".toList)) ∧
        get_sort_score ["cdn1".toList, "cdn2".toList] false "http://x/cdn2/a".toList =
          if false then (i : Int) + 1
          else (i : Int) - (((["cdn1".toList, "cdn2".toList] : List Line).length : Int)))
    ∨ ((∀ kw ∈ (["cdn1".toList, "cdn2".toList] : List Line),
          ¬ kw <:+: "http://x/cdn2/a".toList) ∧
        get_sort_score ["cdn1".toList, "cdn2".toList] false "http://x/cdn2/a".toList = 0) := by
  have h := (claim_C2_score_spec ["cdn1".toList, "cdn2".toList] false
    "http://x/cdn2/a".toList).2 (by decide)
  exact h

/-- Witness for C10 at the one-keyword list `["cdn1"]`, reverse mode. -/
theorem claim_C10_sentinel_witness :
    (∀ item, ¬ scheme <:+: item → get_sort_score ["cdn1".toList] true item = 9999)
    ∧ (∀ item, scheme <:+: item →
        get_sort_score ["cdn1".toList] true item < 9999
        ∧ get_sort_score ["cdn1".toList] true item ≤
            (if true then (((["cdn1".toList] : List Line).length : Int)) else 0))
    ∧ ∀ urls : List Line,
        (pySorted (get_sort_score ["cdn1".toList] true) urls).Pairwise
          (fun a b => ¬ scheme <:+: a → ¬ scheme <:+: b) :=
  claim_C10_sentinel ["cdn1".toList] true (by decide)

/-! ### Target filtering and renaming effects (C1, C8) -/

theorem emitChannel_target_none (kws : List Line) (rm : Bool) (nn : Option Line) :
    emitChannel kws rm none nn = emitChannel kws rm none none := by
  funext ch
  simp [emitChannel, truthyList, truthyStr]

/-- C1, counterexample: in global mode (no target filter) with a rename
string supplied, the code leaves the info line unrenamed, although the
rename would have changed it. -/
theorem claim_C1_counterexample :
    sort_m3u_urls ["a".toList] false none (some "New".toList)
        ["#EXTINF:-1,Old".toList, "http://u".toList]
      = ["#EXTINF:-1,Old".toList, "http://u".toList]
    ∧ rename_inf "#EXTINF:-1,Old".toList "New".toList ≠ "#EXTINF:-1,Old".toList := by
  constructor
  · decide
  · decide

/-- C1, amended: with no target filter configured, `is_target` is `False`
for every channel, so a supplied rename string has no effect at all — the
run is identical to the same run without a rename string. -/
theorem claim_C1_amended (kws : List Line) (rm : Bool) (nn : Option Line)
    (input : List Line) :
    sort_m3u_urls kws rm none nn input = sort_m3u_urls kws rm none none input := by
  cases input with
  | nil => rfl
  | cons l0 rest =>
    simp only [sort_m3u_urls]
    split <;> simp [emitChannel_target_none]

/-- C8: with a (non-empty) target filter configured, a channel whose info
line contains none of the filter substrings is emitted with its info
unchanged and its lines in exactly their original order, regardless of
keyword list, mode flag, or rename string. -/
theorem claim_C8_unmatched_frame (kws : List Line) (rm : Bool) (tcs : List Line)
    (nn : Option Line) (ch : Channel) (hne : tcs ≠ [])
    (hmiss : ∀ tc ∈ tcs, ¬ tc <:+: ch.inf) :
    emitChannel kws rm (some tcs) nn ch = ch.inf :: ch.urls := by
  have htr : truthyList (some tcs) = true := by
    cases tcs with
    | nil => exact absurd rfl hne
    | cons a as => rfl
  have hfalse : (tcs.any fun tc => strContains tc ch.inf) = false := by
    rw [List.any_eq_false]
    intro tc htc
    cases hcc : strContains tc ch.inf with
    | false => simp
    | true => exact absurd (strContains_iff.mp hcc) (hmiss tc htc)
  simp [emitChannel, htr, hfalse]

/-- Witness for C8: a two-url channel not matching the filter `["ESPN"]`
is passed through unchanged even with keywords, reverse mode and a rename
string present. -/
theorem claim_C8_unmatched_frame_witness :
    emitChannel ["a".toList] true (some ["ESPN".toList]) (some "X".toList)
        ⟨"#EXTINF:-1,CNN".toList, ["http://b".toList, "http://a".toList]⟩
      = "#EXTINF:-1,CNN".toList :: ["http://b".toList, "http://a".toList] :=
  claim_C8_unmatched_frame ["a".toList] true ["ESPN".toList] (some "X".toList)
    ⟨"#EXTINF:-1,CNN".toList, ["http://b".toList, "http://a".toList]⟩
    (by decide) (by decide)

/-! ### Header detection and record counting (C4, C9) -/

/-- Truth value of line 25's test `lines and '#EXTM3U' in lines[0]`. -/
def hasHeader (lines : List Line) : Bool :=
  match lines with
  | [] => false
  | l0 :: _ => strContains marker l0

/-- The lines handed to the parsing loop: `lines[start_index:]` of
lines 23-33. -/
def headerBody (lines : List Line) : List Line :=
  match lines with
  | [] => []
  | l0 :: rest => if strContains marker l0 then rest else l0 :: rest

theorem sort_m3u_urls_eq (kws : List Line) (rm : Bool)
    (tgt : Option (List Line)) (nn : Option Line) (lines : List Line) :
    sort_m3u_urls kws rm tgt nn lines
    = (if hasHeader lines then [strip (lines.headD [])] else [])
      ++ (parseChannels (headerBody lines) none []).flatMap (emitChannel kws rm tgt nn) := by
  cases lines with
  | nil => rfl
  | cons l0 rest =>
    simp only [sort_m3u_urls, hasHeader, headerBody]
    split <;> simp

/-- C4, counterexample: when the first line is blank and the *second* line
is the `#EXTM3U` directive, the code does not treat it as a header — the
directive line is dropped from the output entirely. -/
theorem claim_C4_counterexample :
    sort_m3u_urls ["k".toList] false none none
        [([] : Line), "#EXTM3U".toList, "#EXTINF:-1,A".toList, "http://u".toList]
      = ["#EXTINF:-1,A".toList, "http://u".toList]
    ∧ ("#EXTM3U".toList : Line) ∉
        sort_m3u_urls ["k".toList] false none none
          [([] : Line), "#EXTM3U".toList, "#EXTINF:-1,A".toList, "http://u".toList] := by
  constructor
  · decide
  · decide

/-- C4, amended: the sorter treats the *first* raw line as the header iff
that very line contains `#EXTM3U` (not the first non-empty line); when it
does, the line is retained verbatim (trimmed) as the first output line and
excluded from channel parsing. -/
theorem claim_C4_amended (kws : List Line) (rm : Bool) (tgt : Option (List Line))
    (nn : Option Line) (l0 : Line) (rest : List Line) (h : marker <:+: l0) :
    sort_m3u_urls kws rm tgt nn (l0 :: rest)
    = strip l0 :: (parseChannels rest none []).flatMap (emitChannel kws rm tgt nn) := by
  have hc : strContains marker l0 = true := strContains_iff.mpr h
  simp [sort_m3u_urls, hc]

/-- Witness for C4 (amended) on a concrete headered playlist. -/
theorem claim_C4_amended_witness :
    sort_m3u_urls ["k".toList] false none none
        ["  #EXTM3U x-tvg-url=\"e\" ".toList, "#EXTINF:-1,A".toList, "http://u".toList]
    = strip "  #EXTM3U x-tvg-url=\"e\" ".toList ::
        (parseChannels ["#EXTINF:-1,A".toList, "http://u".toList] none []).flatMap
          (emitChannel ["k".toList] false none none) :=
  claim_C4_amended ["k".toList] false none none "  #EXTM3U x-tvg-url=\"e\" ".toList
    ["#EXTINF:-1,A".toList, "http://u".toList] (by decide)

theorem parseChannels_length : ∀ (ls : List Line) (cur : Option Line) (acc : List Line),
    (parseChannels ls cur acc).length
    = (if cur.isSome then 1 else 0)
      + ls.countP (fun l => extinfTag.isPrefixOf (strip l)) := by
  intro ls
  induction ls with
  | nil => intro cur acc; cases cur <;> simp [parseChannels]
  | cons l rest ih =>
    intro cur acc
    by_cases h1 : (strip l).isEmpty
    · have hp : extinfTag.isPrefixOf (strip l) = false := by
        have he : strip l = [] := List.isEmpty_iff.mp h1
        rw [he]; decide

      simp [parseChannels, h1, ih, List.countP_cons, hp]
    · by_cases h2 : extinfTag.isPrefixOf (strip l)
      · cases cur <;>
          simp [parseChannels, h1, h2, ih, List.countP_cons] <;> omega
      · simp [parseChannels, h1, h2, ih, List.countP_cons]

theorem parseChannels_none_acc : ∀ (ls : List Line) (acc acc' : List Line),
    parseChannels ls none acc = parseChannels ls none acc' := by
  intro ls
  induction ls with
  | nil => intro acc acc'; rfl
  | cons l rest ih =>
    intro acc acc'
    by_cases h1 : (strip l).isEmpty
    · simp [parseChannels, h1, ih acc acc']
    · by_cases h2 : extinfTag.isPrefixOf (strip l)
      · simp [parseChannels, h1, h2]
      · simp [parseChannels, h1, h2, ih (acc ++ [strip l]) (acc' ++ [strip l])]

/-- C9: the parser emits exactly one channel record per line of the body
(the lines after the optional header) whose stripped text starts with
`#EXTINF`; and content accumulated before the first info line never
reaches a record — parsing is independent of it. -/
theorem claim_C9_record_count (lines : List Line) :
    ((parseChannels (headerBody lines) none []).length
      = (headerBody lines).countP (fun l => extinfTag.isPrefixOf (strip l)))
    ∧ ∀ acc : List Line,
        parseChannels (headerBody lines) none acc
        = parseChannels (headerBody lines) none [] := by
  constructor
  · simpa using parseChannels_length (headerBody lines) none []
  · intro acc
    exact parseChannels_none_acc (headerBody lines) acc []

/-! ### Renaming (C7) -/

theorem findQuote_append (v b : Line) (hv : '"' ∉ v) :
    findQuote (v ++ '"' :: b) = some (v, b) := by
  induction v with
  | nil => simp [findQuote]
  | cons c v' ih =>
    have hc : (c == '"') = false := by
      cases hcc : c == '"' with
      | false => rfl
      | true =>
        exact absurd (List.mem_cons_self c v') (by rw [show c = '"' from by simpa using hcc] at hv ⊢; exact hv)
    have hv' : '"' ∉ v' := fun hm => hv (List.mem_cons_of_mem c hm)
    simp [findQuote, hc, ih hv']

theorem subAttrGo_not_contains (pat v : Line) :
    ∀ (fuel : Nat) (l : Line), ¬ pat <:+: l → subAttrGo pat v fuel l = l := by
  intro fuel
  induction fuel with
  | zero => intro l _; cases l <;> rfl
  | succ f ih =>
    intro l hl
    cases l with
    | nil => rfl
    | cons c rest =>
      have hp : pat.isPrefixOf (c :: rest) = false := by
        cases hpp : pat.isPrefixOf (c :: rest) with
        | false => rfl
        | true =>
          exact absurd (List.isPrefixOf_iff_prefix.mp hpp).isInfix hl
      have hrest : ¬ pat <:+: rest := fun hm => hl (List.infix_cons hm)
      simp [subAttrGo, hp, ih rest hrest]

theorem subAttr_not_contains (pat v l : Line) (hl : ¬ pat <:+: l) :
    subAttr pat v l = l :=
  subAttrGo_not_contains pat v l.length l hl

theorem subAttrGo_skip (pat v : Line) :
    ∀ (a : Line) (t : Line) (fuel : Nat), a.length + t.length ≤ fuel →
      (∀ i, i < a.length → ¬ pat.isPrefixOf (List.drop i (a ++ t)) = true) →
      subAttrGo pat v fuel (a ++ t) = a ++ subAttrGo pat v (fuel - a.length) t := by
  intro a
  induction a with
  | nil =>
    intro t fuel _ _
    simp
  | cons c a' ih =>
    intro t fuel hfuel hno
    cases fuel with
    | zero =>
      rw [List.length_cons] at hfuel
      omega
    | succ f =>
      have h0 : ¬ pat.isPrefixOf (List.drop 0 ((c :: a') ++ t)) = true :=
        hno 0 (Nat.succ_pos _)
      have h0' : pat.isPrefixOf (c :: (a' ++ t)) = false := by
        cases hpp : pat.isPrefixOf (c :: (a' ++ t)) with
        | false => rfl
        | true => exact absurd (by simpa using hpp) h0
      have hstep : subAttrGo pat v (f + 1) ((c :: a') ++ t)
          = c :: subAttrGo pat v f (a' ++ t) := by
        simp [subAttrGo, h0']
      rw [hstep]
      rw [ih t f (by rw [List.length_cons] at hfuel; omega) (fun i hi => by
        have := hno (i + 1) (Nat.succ_lt_succ hi)
        simpa using this)]
      simp [Nat.succ_sub_succ]

theorem subAttrGo_match (pat v val b : Line) (fuel : Nat) (p0 : Char) (pr : Line)
    (hpat : pat = p0 :: pr) (hval : '"' ∉ val) (hb : ¬ pat <:+: b) :
    subAttrGo pat v (fuel + 1) (pat ++ val ++ '"' :: b) = pat ++ v ++ '"' :: b := by
  subst hpat
  have hfq : findQuote (val ++ '"' :: b) = some (val, b) := findQuote_append val b hval
  have hpre : (p0 :: pr).isPrefixOf (p0 :: (pr ++ (val ++ '"' :: b))) = true := by
    rw [List.isPrefixOf_iff_prefix]
    exact ⟨val ++ '"' :: b, by simp⟩
  have hdrop : List.drop (p0 :: pr).length (p0 :: (pr ++ (val ++ '"' :: b)))
      = val ++ '"' :: b := by
    have h := List.drop_left (p0 :: pr) (val ++ '"' :: b)
    simp only [List.cons_append] at h
    exact h
  have hgoal : (p0 :: pr) ++ val ++ '"' :: b = p0 :: (pr ++ (val ++ '"' :: b)) := by simp
  rw [hgoal]
  simp only [subAttrGo, hpre, hdrop, hfq]
  rw [subAttrGo_not_contains (p0 :: pr) v fuel b hb]
  simp

/-- Single-occurrence correctness of the attribute substitution: when the
pattern occurs exactly once (first occurrence at position `a.length`, no
later occurrence in `b`) and the quoted value `val` is quote-free, the
substitution replaces exactly the quoted value. -/
theorem subAttr_single (pat v : Line) (a val b : Line) (p0 : Char) (pr : Line)
    (hpat : pat = p0 :: pr) (hval : '"' ∉ val) (hb : ¬ pat <:+: b)
    (hfirst : ∀ i, i < a.length →
      ¬ pat.isPrefixOf (List.drop i (a ++ pat ++ val ++ '"' :: b)) = true) :
    subAttr pat v (a ++ pat ++ val ++ '"' :: b) = a ++ pat ++ v ++ '"' :: b := by
  have hside : ∀ i, i < a.length →
      ¬ pat.isPrefixOf (List.drop i (a ++ (pat ++ val ++ '"' :: b))) = true := by
    intro i hi
    have h := hfirst i hi
    rw [show a ++ pat ++ val ++ '"' :: b = a ++ (pat ++ val ++ '"' :: b) by simp] at h
    exact h
  rw [subAttr, show a ++ pat ++ val ++ '"' :: b = a ++ (pat ++ val ++ '"' :: b) by simp]
  rw [subAttrGo_skip pat v a (pat ++ val ++ '"' :: b) _ (by simp) hside]
  have h1 : (a ++ (pat ++ val ++ '"' :: b)).length - a.length
      = (pat ++ val ++ '"' :: b).length := by simp
  rw [h1]
  have hlen2 : (pat ++ val ++ '"' :: b).length = (pat.length + val.length + b.length) + 1 := by
    simp only [List.length_append, List.length_cons]
    omega
  rw [hlen2, subAttrGo_match pat v val b _ p0 pr hpat hval hb]
  simp

theorem dropWhile_append_all {p : Char → Bool} :
    ∀ (xs ys : Line), (∀ x ∈ xs, p x = true) →
      (xs ++ ys).dropWhile p = ys.dropWhile p := by
  intro xs ys h
  induction xs with
  | nil => rfl
  | cons x xs' ih =>
    have hx : p x = true := h x (List.mem_cons_self x xs')
    simp only [List.cons_append, List.dropWhile_cons, hx, if_pos]
    exact ih fun y hy => h y (List.mem_cons_of_mem x hy)

theorem takeWhile_append_all {p : Char → Bool} :
    ∀ (xs ys : Line), (∀ x ∈ xs, p x = true) →
      (xs ++ ys).takeWhile p = xs ++ ys.takeWhile p := by
  intro xs ys h
  induction xs with
  | nil => rfl
  | cons x xs' ih =>
    have hx : p x = true := h x (List.mem_cons_self x xs')
    simp only [List.cons_append, List.takeWhile_cons, hx, if_pos]
    rw [ih fun y hy => h y (List.mem_cons_of_mem x hy)]

theorem rsplit1_spec (a b : Line) (hb : ',' ∉ b) :
    rsplit1 (a ++ ',' :: b) = (a, b) := by
  have hrev : (a ++ ',' :: b).reverse = b.reverse ++ ',' :: a.reverse := by
    simp
  have hall : ∀ x ∈ b.reverse, (x != ',') = true := by
    intro x hx
    have : x ∈ b := List.mem_reverse.mp hx
    have hne : x ≠ ',' := fun he => hb (he ▸ this)
    simpa using hne
  unfold rsplit1
  rw [hrev, dropWhile_append_all b.reverse (',' :: a.reverse) hall,
    takeWhile_append_all b.reverse (',' :: a.reverse) hall]
  simp [List.dropWhile_cons, List.takeWhile_cons]

theorem exists_last_mem {c : Char} : ∀ {l : Line}, c ∈ l →
    ∃ a b, l = a ++ c :: b ∧ c ∉ b := by
  intro l
  induction l with
  | nil => intro h; cases h
  | cons x rest ih =>
    intro h
    by_cases hr : c ∈ rest
    · obtain ⟨a, b, rfl, hnb⟩ := ih hr
      exact ⟨x :: a, b, rfl, hnb⟩
    · have hx : x = c := by
        rcases List.mem_cons.mp h with he | hm
        · exact he.symm
        · exact absurd hm hr
      exact ⟨[], rest, by simp [hx], hr⟩

theorem singleton_infix_iff {c : Char} {l : Line} : [c] <:+: l ↔ c ∈ l := by
  constructor
  · intro h
    exact h.sublist.subset (List.mem_singleton_self c)
  · intro h
    obtain ⟨s, t, rfl⟩ := List.append_of_mem h
    exact ⟨s, t, by simp⟩

/-- C7: renaming a targeted channel first replaces the quoted value of a
`tvg-name="..."` attribute (shown for a unique occurrence), then replaces
the text after the last comma of the evolving info line — appending
`,newName` when that line has no comma; on the spec's concrete example the
round trip produces `tvg-name="NewName"` and trailing `,NewName`. -/
theorem claim_C7_rename (info name : Line) :
    (∀ a val b p0 pr, tvgPat = p0 :: pr → info = a ++ tvgPat ++ val ++ '"' :: b →
      '"' ∉ val → ¬ tvgPat <:+: b →
      (∀ i, i < a.length → ¬ tvgPat.isPrefixOf (List.drop i info) = true) →
      subAttr tvgPat name info = a ++ tvgPat ++ name ++ '"' :: b)
    ∧ ((strContains [','] (if strContains tvgPat info then subAttr tvgPat name info else info) = true →
        ∃ a b, (if strContains tvgPat info then subAttr tvgPat name info else info) = a ++ ',' :: b
          ∧ ',' ∉ b ∧ rename_inf info name = a ++ ',' :: name)
      ∧ (strContains [','] (if strContains tvgPat info then subAttr tvgPat name info else info) = false →
        rename_inf info name
          = (if strContains tvgPat info then subAttr tvgPat name info else info) ++ ',' :: name))
    ∧ rename_inf "#EXTINF:-1 tvg-name=\"Old\",Old Channel".toList "NewName".toList
        = "#EXTINF:-1 tvg-name=\"NewName\",NewName".toList := by
  refine ⟨?_, ⟨?_, ?_⟩, by decide⟩
  · intro a val b p0 pr hpat hinfo hval hb hfirst
    subst hinfo
    exact subAttr_single tvgPat name a val b p0 pr hpat hval hb hfirst
  · intro hcomma
    have hmem : ',' ∈ (if strContains tvgPat info then subAttr tvgPat name info else info) :=
      singleton_infix_iff.mp (strContains_iff.mp hcomma)
    obtain ⟨a, b, heq, hnb⟩ := exists_last_mem hmem
    refine ⟨a, b, heq, hnb, ?_⟩
    rw [heq] at hcomma
    simp only [rename_inf]
    rw [heq, hcomma]
    simp [rsplit1_spec a b hnb]
  · intro hcomma
    simp only [rename_inf]
    rw [hcomma]
    simp

/-- Witness for C7 at the spec's round-trip example: the last-comma
replacement branch with its hypotheses discharged concretely. -/
theorem claim_C7_rename_witness :
    ∃ a b,
      (if strContains tvgPat "#EXTINF:-1 tvg-name=\"Old\",Old Channel".toList then
          subAttr tvgPat "NewName".toList "#EXTINF:-1 tvg-name=\"Old\",Old Channel".toList
        else "#EXTINF:-1 tvg-name=\"Old\",Old Channel".toList) = a ++ ',' :: b
      ∧ ',' ∉ b
      ∧ rename_inf "#EXTINF:-1 tvg-name=\"Old\",Old Channel".toList "NewName".toList
          = a ++ ',' :: "NewName".toList :=
  (claim_C7_rename "#EXTINF:-1 tvg-name=\"Old\",Old Channel".toList
    "NewName".toList).2.1.1 (by decide)

/-! ### The header tool's frame effect (C3) -/

theorem subAttr_append_left (p0 : Char) (pr v a t : Line)
    (hne : ∀ c ∈ a, c ≠ p0) :
    subAttr (p0 :: pr) v (a ++ t) = a ++ subAttr (p0 :: pr) v t := by
  have hno : ∀ i, i < a.length →
      ¬ (p0 :: pr).isPrefixOf (List.drop i (a ++ t)) = true := by
    intro i hi
    have hdrop : List.drop i (a ++ t) = List.drop i a ++ t :=
      List.drop_append_of_le_length (Nat.le_of_lt hi)
    have hcons : List.drop i a = a.get ⟨i, hi⟩ :: List.drop (i + 1) a := by
      rw [List.get_eq_getElem]
      exact List.drop_eq_getElem_cons hi
    have hnec : a.get ⟨i, hi⟩ ≠ p0 := hne _ (List.get_mem a i hi)
    rw [hdrop, hcons]
    intro hpp
    obtain ⟨s, hs⟩ := List.isPrefixOf_iff_prefix.mp hpp
    simp only [List.cons_append] at hs
    injection hs with h1 h2
    exact hnec h1.symm
  rw [subAttr, subAttrGo_skip (p0 :: pr) v a t _ (by simp) hno]
  have h2 : (a ++ t).length - a.length = t.length := by simp
  rw [h2, subAttr]

theorem processDirectiveLine_marker (rv fv : Option Line) (line : Line)
    (h : marker.isPrefixOf line = true) :
    marker.isPrefixOf (processDirectiveLine rv fv line) = true := by
  obtain ⟨t, rfl⟩ := List.isPrefixOf_iff_prefix.mp h
  have hx : xtvgPat = 'x' :: "-tvg-url=\"".toList := by decide
  have hnm : ∀ c ∈ marker, c ≠ 'x' := by decide
  have hsub : ∀ v, marker.isPrefixOf (subAttr xtvgPat v (marker ++ t)) = true := by
    intro v
    rw [hx, subAttr_append_left 'x' "-tvg-url=\"".toList v marker t hnm]
    rw [List.isPrefixOf_iff_prefix]
    exact List.prefix_append _ _
  have happ : ∀ (x : Line), marker.isPrefixOf ((marker ++ t) ++ x) = true := by
    intro x
    rw [List.isPrefixOf_iff_prefix, List.append_assoc]
    exact List.prefix_append _ _
  cases fv with
  | some fvv =>
    cases hsa : searchAttr xtvgPat (marker ++ t) with
    | some w => simp [processDirectiveLine, hsa, hsub fvv]
    | none =>
      simp only [processDirectiveLine, hsa]
      rw [List.isPrefixOf_iff_prefix]
      simp only [List.append_assoc]
      exact List.prefix_append _ _
  | none =>
    cases rv with
    | some rvv =>
      cases hsa : searchAttr xtvgPat (marker ++ t) with
      | some current =>
        cases hc : (strip current).isEmpty with
        | true => simp [processDirectiveLine, hsa, hc, h]
        | false => simp [processDirectiveLine, hsa, hc, hsub rvv]
      | none => simp [processDirectiveLine, hsa, h]
    | none => simp [processDirectiveLine, h]

theorem filter_processHeaderLoop (rv fv : Option Line) (del : Bool) :
    ∀ lines : List Line,
      (processHeaderLoop rv fv del lines).filter (fun l => !(marker.isPrefixOf l))
      = (lines.map rstrip).filter (fun l => !(marker.isPrefixOf l)) := by
  intro lines
  induction lines with
  | nil => rfl
  | cons l rest ih =>
    cases hd : marker.isPrefixOf (rstrip l) with
    | true =>
      cases del with
      | true => simpa [processHeaderLoop, hd] using ih
      | false =>
        have hdir := processDirectiveLine_marker rv fv (rstrip l) hd
        simp [processHeaderLoop, hd, hdir, ih]
    | false =>
      simp [processHeaderLoop, hd, ih]

/-- C3, counterexample: with `-E u`, a second `#EXTM3U` line (not the
first directive line) is rewritten too, and a trailing-whitespace URL line
is not preserved byte-for-byte. -/
theorem claim_C3_counterexample :
    splitlines (process_m3u_header none (some "u".toList) false
        "#EXTM3U a\n#EXTM3U b\nhttp://u ".toList)
      = ["#EXTM3U a x-tvg-url=\"u\"".toList, "#EXTM3U b x-tvg-url=\"u\"".toList,
          "http://u".toList]
    ∧ ("#EXTM3U b".toList : Line) ∉ splitlines (process_m3u_header none (some "u".toList) false
        "#EXTM3U a\n#EXTM3U b\nhttp://u ".toList)
    ∧ ("http://u ".toList : Line) ∉ splitlines (process_m3u_header none (some "u".toList) false
        "#EXTM3U a\n#EXTM3U b\nhttp://u ".toList) := by
  refine ⟨by decide, by decide, by decide⟩

/-- C3, amended: the header tool's processing may rewrite, delete or
insert `#EXTM3U` directive lines (every directive line, not only the
first) and right-strips trailing whitespace from every line; apart from
that it preserves every non-directive line of the input: the non-directive
lines of the output are exactly the `rstrip`ped non-directive lines of the
input, in order. -/
theorem claim_C3_amended (rv fv : Option Line) (del : Bool) (content : Line) :
    (process_m3u_header_lines rv fv del (splitlines content)).filter
        (fun l => !(marker.isPrefixOf l))
      = ((splitlines content).map rstrip).filter (fun l => !(marker.isPrefixOf l)) := by
  have hmm : marker.isPrefixOf marker = true := by decide
  have hma : ∀ x : Line, marker.isPrefixOf (marker ++ x) = true := by
    intro x
    rw [List.isPrefixOf_iff_prefix]
    exact List.prefix_append _ _
  simp only [process_m3u_header_lines]
  split
  · rw [List.filter_cons]
    have : marker.isPrefixOf (marker ++ ' ' :: xtvgPat ++ fv.getD [] ++ ['"']) = true := by
      have h := hma (' ' :: xtvgPat ++ fv.getD [] ++ ['"'])
      simp only [List.append_assoc] at h ⊢
      exact h
    simp only [this, Bool.not_true, Bool.false_eq_true, if_false]
    exact filter_processHeaderLoop rv fv del (splitlines content)
  · split
    · rw [List.filter_cons]
      simp only [hmm]
      simpa using filter_processHeaderLoop rv fv del (splitlines content)
    · exact filter_processHeaderLoop rv fv del (splitlines content)

/-! ### Idempotence of the global sort (C6) -/

theorem dropWhile_idem (p : Char → Bool) : ∀ l : Line,
    (l.dropWhile p).dropWhile p = l.dropWhile p := by
  intro l
  induction l with
  | nil => rfl
  | cons c rest ih =>
    cases hc : p c with
    | true => simpa [List.dropWhile_cons, hc] using ih
    | false => simp [List.dropWhile_cons, hc]

theorem lstrip_idem (l : Line) : lstrip (lstrip l) = lstrip l :=
  dropWhile_idem pyIsSpace l

theorem rstrip_idem (l : Line) : rstrip (rstrip l) = rstrip l := by
  simp only [rstrip, List.reverse_reverse]
  rw [dropWhile_idem]

theorem head_lstrip_not_space : ∀ (l : Line) (c : Char),
    (lstrip l).head? = some c → pyIsSpace c = false := by
  intro l
  induction l with
  | nil => intro c h; cases h
  | cons a rest ih =>
    intro c h
    cases ha : pyIsSpace a with
    | true =>
      rw [lstrip, List.dropWhile_cons, ha] at h
      exact ih c h
    | false =>
      rw [lstrip, List.dropWhile_cons, ha] at h
      simp at h
      rw [← h]
      exact ha

theorem lstrip_eq_self_of_head (l : Line)
    (h : ∀ c, l.head? = some c → pyIsSpace c = false) : lstrip l = l := by
  cases l with
  | nil => rfl
  | cons c rest =>
    have hc := h c rfl
    simp [lstrip, List.dropWhile_cons, hc]

theorem rstrip_prefix (l : Line) : rstrip l <+: l := by
  have h : l.reverse.dropWhile pyIsSpace <:+ l.reverse := List.dropWhile_suffix pyIsSpace
  have h2 := List.reverse_prefix.mpr h
  rw [List.reverse_reverse] at h2
  show (l.reverse.dropWhile pyIsSpace).reverse <+: l
  exact h2

theorem strip_idem (l : Line) : strip (strip l) = strip l := by
  have hls : lstrip (rstrip (lstrip l)) = rstrip (lstrip l) := by
    apply lstrip_eq_self_of_head
    intro c hc
    have hpre := rstrip_prefix (lstrip l)
    obtain ⟨t, ht⟩ := hpre
    have : (lstrip l).head? = some c := by
      rw [← ht, List.head?_append, hc]
      rfl
    exact head_lstrip_not_space l c this
  rw [strip, strip, hls, rstrip_idem]

theorem infix_drop_spaces_left {m : Line} (hm : m ≠ [])
    (hms : ∀ c ∈ m, pyIsSpace c = false) :
    ∀ (xs ys : Line), (∀ x ∈ xs, pyIsSpace x = true) → m <:+: xs ++ ys → m <:+: ys := by
  intro xs
  induction xs with
  | nil => intro ys _ h; simpa using h
  | cons x xs' ih =>
    intro ys hsp h
    rw [List.cons_append, List.infix_cons_iff] at h
    rcases h with hp | hi
    · exfalso
      cases m with
      | nil => exact hm rfl
      | cons m0 mr =>
        obtain ⟨t, ht⟩ := hp
        simp only [List.cons_append] at ht
        injection ht with h1 h2
        have hx : pyIsSpace x = true := hsp x (List.mem_cons_self x xs')
        have hm0 : pyIsSpace m0 = false := hms m0 (List.mem_cons_self m0 mr)
        rw [h1] at hm0
        rw [hm0] at hx
        cases hx
    · exact ih ys (fun y hy => hsp y (List.mem_cons_of_mem x hy)) hi

theorem infix_drop_spaces_right {m : Line} (hm : m ≠ [])
    (hms : ∀ c ∈ m, pyIsSpace c = false) :
    ∀ (xs ys : Line), (∀ x ∈ ys, pyIsSpace x = true) → m <:+: xs ++ ys → m <:+: xs := by
  intro xs ys hsp h
  have hrev : m.reverse <:+: ys.reverse ++ xs.reverse := by
    rw [← List.reverse_append]
    rw [List.reverse_infix]
    exact h
  have hmr : m.reverse ≠ [] := by
    intro hc
    exact hm (by simpa using congrArg List.reverse hc)
  have hmsr : ∀ c ∈ m.reverse, pyIsSpace c = false := by
    intro c hc
    exact hms c (List.mem_reverse.mp hc)
  have hspr : ∀ x ∈ ys.reverse, pyIsSpace x = true := by
    intro x hx
    exact hsp x (List.mem_reverse.mp hx)
  have := infix_drop_spaces_left hmr hmsr ys.reverse xs.reverse hspr hrev
  rw [← List.reverse_infix]
  exact this

theorem infix_strip {m l : Line} (hm : m ≠ [])
    (hms : ∀ c ∈ m, pyIsSpace c = false) (h : m <:+: l) : m <:+: strip l := by
  have hdecomp1 : l = l.takeWhile pyIsSpace ++ lstrip l :=
    (List.takeWhile_append_dropWhile pyIsSpace l).symm
  have hstep1 : m <:+: lstrip l := by
    apply infix_drop_spaces_left hm hms (l.takeWhile pyIsSpace) (lstrip l)
      (fun x hx => List.mem_takeWhile_imp hx)
    rw [← hdecomp1]
    exact h
  set x := lstrip l with hx
  have hdecomp2 : x = rstrip x ++ (x.reverse.takeWhile pyIsSpace).reverse := by
    rw [rstrip, ← List.reverse_append, ← List.reverse_reverse x]
    rw [List.reverse_inj, List.reverse_reverse]
    exact (List.takeWhile_append_dropWhile pyIsSpace x.reverse).symm
  apply infix_drop_spaces_right hm hms (rstrip x) ((x.reverse.takeWhile pyIsSpace).reverse)
  · intro c hc
    exact List.mem_takeWhile_imp (List.mem_reverse.mp hc)
  · rw [← hdecomp2]
    exact hstep1

/-- Invariant of every url line a parsed record holds: stripped, non-empty
and not an info line. -/
def wfUrl (u : Line) : Prop :=
  strip u = u ∧ u ≠ [] ∧ extinfTag.isPrefixOf u = false

/-- Invariant of a parsed channel record: a stripped non-empty info line
bearing the info marker, and well-formed url lines. -/
def wfCh (ch : Channel) : Prop :=
  strip ch.inf = ch.inf ∧ ch.inf ≠ [] ∧ extinfTag.isPrefixOf ch.inf = true
  ∧ ∀ u ∈ ch.urls, wfUrl u

theorem isEmpty_false_of_ne {l : Line} (h : l ≠ []) : l.isEmpty = false := by
  cases l with
  | nil => exact absurd rfl h
  | cons a as => rfl

theorem ne_of_isEmpty_false {l : Line} (h : l.isEmpty = false) : l ≠ [] := by
  cases l with
  | nil => cases h
  | cons a as => exact List.cons_ne_nil a as

theorem parseChannels_wf : ∀ (ls : List Line) (cur : Option Line) (acc : List Line),
    (∀ inf, cur = some inf →
      strip inf = inf ∧ inf ≠ [] ∧ extinfTag.isPrefixOf inf = true) →
    (∀ u ∈ acc, wfUrl u) →
    ∀ ch ∈ parseChannels ls cur acc, wfCh ch := by
  intro ls
  induction ls with
  | nil =>
    intro cur acc hcur hacc ch hch
    cases cur with
    | none => cases hch
    | some inf =>
      simp only [parseChannels, List.mem_singleton] at hch
      subst hch
      obtain ⟨h1, h2, h3⟩ := hcur inf rfl
      exact ⟨h1, h2, h3, hacc⟩
  | cons l rest ih =>
    intro cur acc hcur hacc ch hch
    by_cases h1 : (strip l).isEmpty
    · simp only [parseChannels, h1, if_true] at hch
      exact ih cur acc hcur hacc ch hch
    · have hse : strip l ≠ [] := ne_of_isEmpty_false (by simpa using h1)
      by_cases h2 : extinfTag.isPrefixOf (strip l) = true
      · have hrec2 : ∀ c, c ∈ parseChannels rest (some (strip l)) [] → wfCh c := by
          refine ih (some (strip l)) [] ?_ (by intro u hu; cases hu)
          intro inf hinf
          injection hinf with hinf
          subst hinf
          exact ⟨strip_idem l, hse, h2⟩
        cases cur with
        | none =>
          simp only [parseChannels, h1, h2, if_true, Bool.false_eq_true, if_false,
            List.nil_append] at hch
          exact hrec2 ch hch
        | some inf =>
          simp only [parseChannels, h1, h2, if_true, Bool.false_eq_true, if_false,
            List.singleton_append, List.mem_cons] at hch
          rcases hch with hfl | hrec
          · subst hfl
            obtain ⟨g1, g2, g3⟩ := hcur inf rfl
            exact ⟨g1, g2, g3, hacc⟩
          · exact hrec2 ch hrec
      · simp only [parseChannels, h1, h2, Bool.false_eq_true, if_false] at hch
        refine ih cur (acc ++ [strip l]) hcur ?_ ch hch
        intro u hu
        rcases List.mem_append.mp hu with hu | hu
        · exact hacc u hu
        · simp only [List.mem_singleton] at hu
          subst hu
          refine ⟨strip_idem l, hse, ?_⟩
          cases hx : extinfTag.isPrefixOf (strip l) with
          | true => exact absurd hx h2
          | false => rfl

theorem parse_emit_urls : ∀ (us rest : List Line) (inf : Line) (acc : List Line),
    (∀ u ∈ us, wfUrl u) →
    parseChannels (us ++ rest) (some inf) acc
      = parseChannels rest (some inf) (acc ++ us) := by
  intro us
  induction us with
  | nil =>
    intro rest inf acc _
    simp
  | cons u us' ih =>
    intro rest inf acc hwf
    obtain ⟨hs, hne, hpf⟩ := hwf u (List.mem_cons_self u us')
    have hie : u.isEmpty = false := isEmpty_false_of_ne hne
    rw [List.cons_append, parseChannels]
    simp only [hs, hie, hpf, Bool.false_eq_true, if_false]
    rw [ih rest inf (acc ++ [u]) (fun v hv => hwf v (List.mem_cons_of_mem u hv))]
    simp

theorem parse_emitted_cons : ∀ (chs : List Channel) (inf : Line) (acc : List Line),
    (∀ ch ∈ chs, wfCh ch) →
    parseChannels (chs.flatMap (fun ch => ch.inf :: ch.urls)) (some inf) acc
      = ⟨inf, acc⟩ :: chs := by
  intro chs
  induction chs with
  | nil => intro inf acc _; rfl
  | cons ch chs' ih =>
    intro inf acc hwf
    obtain ⟨hs, hne, hpf, hurls⟩ := hwf ch (List.mem_cons_self ch chs')
    have hie : ch.inf.isEmpty = false := isEmpty_false_of_ne hne
    rw [List.flatMap_cons, List.cons_append, parseChannels]
    simp only [hs, hie, hpf, Bool.false_eq_true, if_false, if_true]
    rw [parse_emit_urls ch.urls _ ch.inf [] hurls]
    simp only [List.nil_append]
    rw [ih ch.inf ch.urls (fun c hc => hwf c (List.mem_cons_of_mem ch hc))]
    rfl

theorem parse_emitted (chs : List Channel) (hwf : ∀ ch ∈ chs, wfCh ch) :
    parseChannels (chs.flatMap (fun ch => ch.inf :: ch.urls)) none [] = chs := by
  cases chs with
  | nil => rfl
  | cons ch chs' =>
    obtain ⟨hs, hne, hpf, hurls⟩ := hwf ch (List.mem_cons_self ch chs')
    have hie : ch.inf.isEmpty = false := isEmpty_false_of_ne hne
    rw [List.flatMap_cons, List.cons_append, parseChannels]
    simp only [hs, hie, hpf, Bool.false_eq_true, if_false, if_true]
    rw [parse_emit_urls ch.urls _ ch.inf [] hurls]
    simp only [List.nil_append]
    rw [parse_emitted_cons chs' ch.inf ch.urls
      (fun c hc => hwf c (List.mem_cons_of_mem ch hc))]

theorem emitChannel_global (kws : List Line) (rm : Bool) (ch : Channel) :
    emitChannel kws rm none none ch
      = ch.inf :: pySorted (get_sort_score kws rm) ch.urls := by
  cases hu : ch.urls with
  | nil => simp [emitChannel, truthyList, truthyStr, hu, pySorted]
  | cons u us => simp [emitChannel, truthyList, truthyStr, hu, pySorted]

theorem pySorted_idem (key : Line → Int) (l : List Line) :
    pySorted key (pySorted key l) = pySorted key l :=
  List.Sorted.insertionSort_eq (List.sorted_insertionSort (keyLe key) l)

/-- C6, counterexample: idempotence fails when a headerless playlist's
first info line contains `#EXTM3U` as a substring — the second run
mistakes the first output line for a header and drops the channel's URL. -/
theorem claim_C6_counterexample :
    sort_m3u_urls ["k".toList] false none none
        (sort_m3u_urls ["k".toList] false none none
          ["x".toList, "#EXTINF:-1,a #EXTM3U b".toList, "http://u".toList])
      ≠ sort_m3u_urls ["k".toList] false none none
          ["x".toList, "#EXTINF:-1,a #EXTM3U b".toList, "http://u".toList] := by
  decide

/-- C6, amended: running the global-mode sorter (no target filter, no
rename) on its own output changes nothing, provided the first output line
contains `#EXTM3U` exactly when the input's first line does (that is, no
info line containing `#EXTM3U` as a substring becomes the first line of a
headerless output). -/
theorem claim_C6_amended (kws : List Line) (rm : Bool) (input : List Line)
    (hhead : (sort_m3u_urls kws rm none none input).head?.all
        (fun l => strContains marker l == hasHeader input) = true) :
    sort_m3u_urls kws rm none none (sort_m3u_urls kws rm none none input)
      = sort_m3u_urls kws rm none none input := by
  have hwf : ∀ ch ∈ parseChannels (headerBody input) none [], wfCh ch :=
    parseChannels_wf (headerBody input) none []
      (by intro inf h; cases h) (by intro u hu; cases hu)
  set key := get_sort_score kws rm with hkeydef
  set chans := parseChannels (headerBody input) none [] with hchansdef
  set chans' := chans.map (fun ch => Channel.mk ch.inf (pySorted key ch.urls))
    with hchansdef'
  have hwf' : ∀ ch ∈ chans', wfCh ch := by
    intro ch hch
    rw [hchansdef', List.mem_map] at hch
    obtain ⟨ch0, hch0, rfl⟩ := hch
    obtain ⟨h1, h2, h3, h4⟩ := hwf ch0 hch0
    exact ⟨h1, h2, h3, fun u hu => h4 u ((List.mem_insertionSort _).mp hu)⟩
  have hemit : emitChannel kws rm none none
      = fun ch => ch.inf :: pySorted key ch.urls :=
    funext fun ch => emitChannel_global kws rm ch
  have hflat : chans.flatMap (emitChannel kws rm none none)
      = chans'.flatMap (fun ch => ch.inf :: ch.urls) := by
    rw [hemit, hchansdef', List.flatMap_map]
  have hparse : parseChannels (chans'.flatMap (fun ch => ch.inf :: ch.urls)) none []
      = chans' := parse_emitted chans' hwf'
  have hresort : chans'.flatMap (fun ch => ch.inf :: pySorted key ch.urls)
      = chans'.flatMap (fun ch => ch.inf :: ch.urls) := by
    rw [hchansdef', List.flatMap_map, List.flatMap_map]
    congr 1
    funext ch
    rw [pySorted_idem]
  cases input with
  | nil => rfl
  | cons l0 rest =>
    cases hh : strContains marker l0 with
    | true =>
      have hbody : headerBody (l0 :: rest) = rest := by
        simp [headerBody, hh]
      have hout : sort_m3u_urls kws rm none none (l0 :: rest)
          = strip l0 :: chans.flatMap (emitChannel kws rm none none) := by
        rw [hchansdef, hbody]
        simp [sort_m3u_urls, hh]
      have hm3 : strContains marker (strip l0) = true := by
        apply strContains_iff.mpr
        exact infix_strip (by decide) (by decide) (strContains_iff.mp hh)
      rw [hout, hflat]
      show sort_m3u_urls kws rm none none
          (strip l0 :: chans'.flatMap (fun ch => ch.inf :: ch.urls)) = _
      simp only [sort_m3u_urls, hm3, if_true]
      rw [strip_idem, hparse, hemit, hresort]
    | false =>
      have hbody : headerBody (l0 :: rest) = l0 :: rest := by
        simp [headerBody, hh]
      have hout : sort_m3u_urls kws rm none none (l0 :: rest)
          = chans.flatMap (emitChannel kws rm none none) := by
        rw [hchansdef, hbody]
        simp [sort_m3u_urls, hh]
      rw [hout, hflat]
      cases hcs : chans' with
      | nil => rfl
      | cons ch0 chs' =>
        have hhh : hasHeader (l0 :: rest) = false := by
          simp [hasHeader, hh]
        have hohead : (sort_m3u_urls kws rm none none (l0 :: rest)).head?
            = some ch0.inf := by
          rw [hout, hflat, hcs]
          simp
        rw [hohead, hhh] at hhead
        simp only [Option.all_some, beq_iff_eq] at hhead
        rw [hcs] at hparse hresort
        simp only [List.flatMap_cons, List.cons_append]
        simp only [sort_m3u_urls, hhead, Bool.false_eq_true, if_false]
        rw [show ch0.inf :: (ch0.urls ++ chs'.flatMap (fun ch => ch.inf :: ch.urls))
            = (ch0 :: chs').flatMap (fun ch => ch.inf :: ch.urls) by simp]
        rw [hparse, hemit, hresort]

/-- Witness for C6 (amended) on a concrete headered playlist with two
URLs that the keyword list reorders. -/
theorem claim_C6_amended_witness :
    sort_m3u_urls ["a".toList] false none none
        (sort_m3u_urls ["a".toList] false none none
          ["#EXTM3U".toList, "#EXTINF:-1,A".toList, "http://b".toList, "http://a".toList])
      = sort_m3u_urls ["a".toList] false none none
          ["#EXTM3U".toList, "#EXTINF:-1,A".toList, "http://b".toList, "http://a".toList] :=
  claim_C6_amended ["a".toList] false
    ["#EXTM3U".toList, "#EXTINF:-1,A".toList, "http://b".toList, "http://a".toList]
    (by decide)

end M3U
